import Mathlib

/-!
Shallow embedding of the core of the `AnkiSyncDuolingoAudio` repository
(`src/duolingo_sync/duolingo/duolingo.py`): the skill dependency-order
algorithm, the language-switch protocol and per-language accessors, the
vocabulary pagination loop, the construction-time authentication probe,
and the daily-XP cutoff computation.

Modelling conventions:
* Python exceptions are modelled by the `DuoError` sum type; the spec's
  error taxonomy names (`DependencyCycleError`, `LanguageSwitchError`, ...)
  are used as constructor names for the corresponding `DuolingoException`
  raise-sites of the code.
* Recursion that the Python code performs without a structural bound is
  modelled with an explicit fuel parameter; `DuoError.outOfFuel` is the
  fuel-exhaustion marker of the embedding, not a program behaviour.  A
  result of `.error .outOfFuel` for every fuel value models divergence.
* Python `dict`s keyed by strings are modelled as association lists with
  first-match lookup; insertion is cons (which shadows older entries,
  exactly as assignment overwrites a dict entry).
* Timestamps are modelled as integer seconds; on integers, Python's
  `round((a + b).timestamp())` is exact integer arithmetic.
-/

/-- Errors of the embedded program.  Constructors follow the spec's error
taxonomy; each corresponds to a concrete raise-site in `duolingo.py`.
`outOfFuel` is the embedding's fuel-exhaustion marker (see module docs). -/
inductive DuoError where
  | DependencyCycleError (chain : List String)
  | KeyError (key : String)
  | LanguageSwitchError
  | HttpStatusError (status : Nat)
  | AuthenticationError
  | MalformedCredentialError
  | UsernameResolutionError
  | NotFoundError
  | outOfFuel
deriving DecidableEq, Repr

/-- A skill record of a language's `skills` list, with the fields read by
`duolingo.py`: `name`, `dependencies_name`, `title`, `learned`,
`strength`, `words`.  The computed `dependency_order` entry that the code
stores back onto the skill dict is modelled as a separate memo table keyed
by skill name (see `mlookup`). -/
structure Skill where
  name : String
  dependencies_name : List String
  title : String
  learned : Bool
  strength : ℚ
  words : List String
deriving DecidableEq, Repr

/-- First-match lookup in an association list keyed by strings (a Python
`dict` access that may miss). -/
def alookup {α : Type} : List (String × α) → String → Option α
  | [], _ => none
  | (k, v) :: rest, n => if n = k then some v else alookup rest n

/-- The memo table holding computed `dependency_order` values, keyed by
skill name (the code stores them on the skill dicts themselves; since the
name-to-skill dictionary aliases those dicts, a name-keyed table is the
same state). -/
abbrev Memo := List (String × Nat)

/-- `skills_dict` of `_compute_dependency_order_func`: build a name → skill
dictionary by iterating over the list; a later skill with the same name
overwrites an earlier one. -/
def skills_dict (skills : List Skill) : String → Option Skill :=
  fun n => skills.foldl (fun acc s => if s.name = n then some s else acc) none

/-- The list comprehension inside `_get_skill_ordinal`: compute the orders
of the named dependencies left to right (a missing dictionary key is a
Python `KeyError`), threading the memo state.  The single-skill
computation is passed as `single` so that the whole development is plain
structural recursion (on the fuel in `getSkillOrdinal`, on the name list
here), which the kernel can evaluate. -/
def getSkillOrdinalListWith (dict : String → Option Skill)
    (single : Memo → Skill → List String → Except DuoError (Nat × Memo)) :
    Memo → List String → List String → Except DuoError (List Nat × Memo)
  | memo, [], _ => .ok ([], memo)
  | memo, n :: ns, breadcrumbs =>
    match dict n with
    | none => .error (.KeyError n)
    | some sk =>
      match single memo sk breadcrumbs with
      | .error e => .error e
      | .ok (v, memo') =>
        match getSkillOrdinalListWith dict single memo' ns breadcrumbs with
        | .error e => .error e
        | .ok (vs, memo'') => .ok (v :: vs, memo'')

/-- `Duolingo._get_skill_ordinal`: compute the dependency order of one
skill.  `breadcrumbs` is the explicit currently-being-visited stack; if the
skill's name is already on it the code raises
`DuolingoException("Loop encountered: <breadcrumbs + [name]>")`, modelled
as `DependencyCycleError`.  A memo hit returns the stored order; a skill
with no dependencies is memoised at 1; otherwise the order is
1 + max over the dependencies' orders (`List.foldl Nat.max 0` is the
maximum of the non-empty value list).  Fuel models the unbounded call
stack. -/
def getSkillOrdinal (dict : String → Option Skill) :
    Nat → Memo → Skill → List String → Except DuoError (Nat × Memo)
  | 0, _, _, _ => .error .outOfFuel
  | fuel + 1, memo, skill, breadcrumbs =>
    if skill.name ∈ breadcrumbs then
      .error (.DependencyCycleError (breadcrumbs ++ [skill.name]))
    else
      match alookup memo skill.name with
      | some o => .ok (o, memo)
      | none =>
        if skill.dependencies_name = [] then
          .ok (1, (skill.name, 1) :: memo)
        else
          match getSkillOrdinalListWith dict (getSkillOrdinal dict fuel) memo
              skill.dependencies_name (breadcrumbs ++ [skill.name]) with
          | .error e => .error e
          | .ok (vals, memo') =>
            let o := 1 + vals.foldl Nat.max 0
            .ok (o, (skill.name, o) :: memo')

/-- The dependency-list traversal at a given fuel level (the form the
lemmas below are stated about). -/
def getSkillOrdinalList (dict : String → Option Skill) (fuel : Nat)
    (memo : Memo) (ns : List String) (breadcrumbs : List String) :
    Except DuoError (List Nat × Memo) :=
  getSkillOrdinalListWith dict (getSkillOrdinal dict fuel) memo ns breadcrumbs

/-- The per-skill loop of `_compute_dependency_order_func`: for each skill
in order, compute its ordinal with an empty breadcrumb stack and store it
(`skill['dependency_order'] = ...`). -/
def computeOrdersAux (dict : String → Option Skill) (fuel : Nat) :
    Memo → List Skill → Except DuoError Memo
  | memo, [] => .ok memo
  | memo, s :: rest =>
    match getSkillOrdinal dict fuel memo s [] with
    | .error e => .error e
    | .ok (o, memo') => computeOrdersAux dict fuel ((s.name, o) :: memo') rest

/-- `Duolingo._compute_dependency_order_func` run against a memo state
(the orders already stored on the skill dicts); the fresh call is
`compute_dependency_order`.  The fuel `skills.length + 1` dominates the
recursion depth, which is bounded by the number of distinct skill names on
the breadcrumb stack (proved below). -/
def compute_dependency_order_from (skills : List Skill) (memo : Memo) :
    Except DuoError Memo :=
  computeOrdersAux (skills_dict skills) (skills.length + 1) memo skills

/-- `Duolingo._compute_dependency_order_func` on a fresh skill list (no
order computed yet). -/
def compute_dependency_order (skills : List Skill) : Except DuoError Memo :=
  compute_dependency_order_from skills []

/-! ## Vocabulary pagination (`Duolingo.get_vocabulary`, lines 425-445) -/

/-- One response of the learned-lexemes endpoint: the lexeme list (lexeme
records are modelled opaquely as strings — only their count and identity
matter here) plus the pagination block. -/
structure VocabPage where
  learnedLexemes : List String
  totalLexemes : Nat
  nextStartIndex : Nat
deriving DecidableEq, Repr

/-- The pagination loop of `get_vocabulary`: the (deterministic) server is
a function from the `startIndex` query parameter to the page it returns
(the POST body is the same on every request).  Starting from
`current_index`, append the returned lexemes to `data`, stop as soon as
`len(data) >= totalLexemes`, otherwise continue at `nextStartIndex`.
`visited` records the cursor of every request issued, in order, so the
request count and cursor trace are observable.  The Python loop is
`while True` with no iteration bound; fuel exhaustion for every fuel
models its divergence. -/
def get_vocabulary_loop (server : Nat → VocabPage) :
    Nat → Nat → List String → List Nat →
    Except DuoError (List String × List Nat)
  | 0, _, _, _ => .error .outOfFuel
  | fuel + 1, current_index, data, visited =>
    let overview := server current_index
    let data' := data ++ overview.learnedLexemes
    let visited' := visited ++ [current_index]
    if overview.totalLexemes ≤ data'.length then .ok (data', visited')
    else get_vocabulary_loop server fuel overview.nextStartIndex data' visited'

/-- `fetch_all` entry point: pagination starts at cursor 0 with an empty
accumulator. -/
def fetch_all (server : Nat → VocabPage) (fuel : Nat) :
    Except DuoError (List String × List Nat) :=
  get_vocabulary_loop server fuel 0 [] []

/-! ## Snapshot, language switch, per-language accessors -/

/-- The per-language entry of `language_data` (only the `skills` field is
read by the accessors modelled here). -/
structure LanguageData where
  skills : List Skill
deriving DecidableEq, Repr

/-- The cached user snapshot (`self.user_data`): the fields the modelled
accessors read. -/
structure UserData where
  language_data : List (String × LanguageData)
deriving DecidableEq, Repr

/-- `Duolingo._is_current_language`: `abbr in self.user_data.language_data.keys()`. -/
def is_current_language (ud : UserData) (abbr : String) : Bool :=
  (alookup ud.language_data abbr).isSome

/-- The server behaviour relevant to a language switch: the HTTP status of
the switch POST, and the snapshot the profile endpoint serves on the
reload that follows a switch request for `abbr` (a platform that silently
ignores the switch serves a snapshot without `abbr`). -/
structure SwitchServer where
  switchStatus : String → Nat
  dataAfterSwitch : String → UserData

/-- `Duolingo._switch_language`: POST the switch endpoint
(`response.raise_for_status()` raises on a 4xx/5xx status), then reload
`self.user_data` from the profile endpoint, and raise
`DuolingoException('Failed to switch language')` (the spec's
`LanguageSwitchError`) if `abbr` is still not a key of `language_data`. -/
def switch_language (srv : SwitchServer) (abbr : String) (_ud : UserData) :
    Except DuoError UserData :=
  if 400 ≤ srv.switchStatus abbr ∧ srv.switchStatus abbr < 600 then
    .error (.HttpStatusError (srv.switchStatus abbr))
  else
    let ud' := srv.dataAfterSwitch abbr
    if is_current_language ud' abbr then .ok ud'
    else .error .LanguageSwitchError

/-- The list comprehension of `get_known_topics`: titles of learned
skills, in skill order. -/
def known_topics_of (ld : LanguageData) : List String :=
  (ld.skills.filter (fun t => t.learned)).map (fun t => t.title)

/-- The list comprehension of `get_golden_topics`: titles of skills that
are learned and have `strength == 1.0`. -/
def golden_topics_of (ld : LanguageData) : List String :=
  (ld.skills.filter (fun t => t.learned ∧ t.strength = 1)).map (fun t => t.title)

/-- The list comprehension of `get_reviewable_topics`: titles of skills
that are learned and have `strength < 1.0`. -/
def reviewable_topics_of (ld : LanguageData) : List String :=
  (ld.skills.filter (fun t => t.learned ∧ t.strength < 1)).map (fun t => t.title)

/-- `Duolingo.get_known_topics`: ensure the language is active (issuing a
switch if not), then read the learned skills' titles.  The result carries
the snapshot after the call and the number of switch requests issued. -/
def get_known_topics (srv : SwitchServer) (abbr : String) (ud : UserData) :
    Except DuoError (List String × UserData × Nat) :=
  if is_current_language ud abbr then
    match alookup ud.language_data abbr with
    | some ld => .ok (known_topics_of ld, ud, 0)
    | none => .error (.KeyError abbr)
  else
    match switch_language srv abbr ud with
    | .error e => .error e
    | .ok ud' =>
      match alookup ud'.language_data abbr with
      | some ld => .ok (known_topics_of ld, ud', 1)
      | none => .error (.KeyError abbr)

/-- `Duolingo.get_golden_topics` (same ensure-active preamble as
`get_known_topics`). -/
def get_golden_topics (srv : SwitchServer) (abbr : String) (ud : UserData) :
    Except DuoError (List String × UserData × Nat) :=
  if is_current_language ud abbr then
    match alookup ud.language_data abbr with
    | some ld => .ok (golden_topics_of ld, ud, 0)
    | none => .error (.KeyError abbr)
  else
    match switch_language srv abbr ud with
    | .error e => .error e
    | .ok ud' =>
      match alookup ud'.language_data abbr with
      | some ld => .ok (golden_topics_of ld, ud', 1)
      | none => .error (.KeyError abbr)

/-- `Duolingo.get_reviewable_topics` (same ensure-active preamble as
`get_known_topics`). -/
def get_reviewable_topics (srv : SwitchServer) (abbr : String) (ud : UserData) :
    Except DuoError (List String × UserData × Nat) :=
  if is_current_language ud abbr then
    match alookup ud.language_data abbr with
    | some ld => .ok (reviewable_topics_of ld, ud, 0)
    | none => .error (.KeyError abbr)
  else
    match switch_language srv abbr ud with
    | .error e => .error e
    | .ok ud' =>
      match alookup ud'.language_data abbr with
      | some ld => .ok (reviewable_topics_of ld, ud', 1)
      | none => .error (.KeyError abbr)

/-- `Duolingo.get_known_words`: faithful to the code, which — unlike every
other per-language accessor — does NOT ensure the language is active: it
indexes `self.user_data.language_data[abbr]` directly (a Python `KeyError`
when absent), accumulates the words of learned skills, and returns
`list(set(words))` (modelled as `List.dedup`; the claim leaves element
order unspecified).  It issues no requests at all, hence no server
argument and a switch count of 0. -/
def get_known_words (abbr : String) (ud : UserData) :
    Except DuoError (List String × UserData × Nat) :=
  match alookup ud.language_data abbr with
  | none => .error (.KeyError abbr)
  | some ld =>
    .ok ((ld.skills.foldl
      (fun acc t => if t.learned then acc ++ t.words else acc) []).dedup, ud, 0)

/-! ## Construction-time authentication (`Duolingo.__init__`) -/

/-- A successfully constructed client (`Duolingo` object): credential,
resolved username, initial snapshot. -/
structure Client where
  jwt : String
  username : String
  user_data : UserData
deriving DecidableEq, Repr

/-- The server behaviour relevant to construction: the username served by
the profile-by-id endpoint (none when the response has no parsable
`username` field) and the status and body of the profile-by-username
endpoint. -/
structure InitServer where
  usernameById : String → Option String
  profileStatus : String → Nat
  profileJson : String → UserData

/-- `Duolingo._check_authentication`: one GET of the profile-by-username
endpoint; success is exactly status 200. -/
def check_authentication (srv : InitServer) (username : String) : Bool :=
  srv.profileStatus username = 200

/-- `Duolingo._get_data`: GET the profile-by-username endpoint; a 404
status raises, otherwise the JSON body is the snapshot. -/
def get_data (srv : InitServer) (username : String) : Except DuoError UserData :=
  if srv.profileStatus username = 404 then .error .NotFoundError
  else .ok (srv.profileJson username)

/-- `Duolingo.__init__`: decode the credential's subject claim
(`decodeSub`, modelled from the spec: `CredentialDecoder.decode_subject`
lives in `duolingo/jwt.py`, which is not part of the sources — it fails
with `MalformedCredentialError` when the payload cannot be parsed),
resolve the username from the profile-by-id endpoint
(`_set_username`), run exactly one authentication probe
(`_check_authentication`) and raise `AuthenticationError` unless it
succeeds, then load the initial snapshot (`_get_data`).  The second
component of the result counts the authentication-probe requests
issued. -/
def duolingo_init (decodeSub : String → Option String) (srv : InitServer)
    (jwt : String) : Except DuoError Client × Nat :=
  match decodeSub jwt with
  | none => (.error .MalformedCredentialError, 0)
  | some uuid =>
    match srv.usernameById uuid with
    | none => (.error .UsernameResolutionError, 0)
    | some username =>
      if check_authentication srv username then
        match get_data srv username with
        | .error e => (.error e, 1)
        | .ok ud => (.ok ⟨jwt, username, ud⟩, 1)
      else (.error .AuthenticationError, 1)

/-! ## Daily XP progress (`Duolingo.get_daily_xp_progress`) -/

/-- One entry of `xpGains`: a completion timestamp and the XP earned. -/
structure XpGain where
  time : Int
  xp : Int
deriving DecidableEq, Repr

/-- The result of `get_daily_xp_progress`. -/
structure DailyProgressResult where
  xp_goal : Int
  lessons_today : List XpGain
  xp_today : Int
deriving DecidableEq, Repr

/-- The cutoff computation of `get_daily_xp_progress` (lines 469-470):
`time_discrepancy = min(midnight - reported_midnight, timedelta(0))`,
`update_cutoff = round((reported_midnight + time_discrepancy).timestamp())`;
with integer-second timestamps the `round` is exact. -/
def update_cutoff (midnight reported_midnight : Int) : Int :=
  reported_midnight + min (midnight - reported_midnight) 0

/-- `Duolingo.get_daily_xp_progress`: filter the gains to those strictly
after the cutoff; `xp_today` is the sum of their `xp` fields. -/
def get_daily_xp_progress (xpGoal : Int) (xpGains : List XpGain)
    (midnight reported_midnight : Int) : DailyProgressResult :=
  let cutoff := update_cutoff midnight reported_midnight
  let lessons := xpGains.filter (fun l => cutoff < l.time)
  ⟨xpGoal, lessons, (lessons.map (fun l => l.xp)).sum⟩

/-! ## Derived notions used by the theorems -/

/-- `a` depends (directly) on `b` in the skill graph: some skill named `a`
lists `b` among its dependency names. -/
def Edge (skills : List Skill) (a b : String) : Prop :=
  ∃ s ∈ skills, s.name = a ∧ b ∈ s.dependencies_name

instance (skills : List Skill) (a b : String) : Decidable (Edge skills a b) :=
  decidable_of_iff (∃ s ∈ skills, s.name = a ∧ b ∈ s.dependencies_name)
    Iff.rfl

/-- The dependency graph of the skill list contains a (directed) cycle:
some name reaches itself through one or more dependency edges. -/
def HasCycle (skills : List Skill) : Prop :=
  ∃ a, Relation.TransGen (Edge skills) a a

/-- `m'` extends `m`: every association visible in `m` is visible
unchanged in `m'`. -/
def MemoLe (m m' : Memo) : Prop :=
  ∀ n o, alookup m n = some o → alookup m' n = some o

/-- A memo table is coherent with the skill list when every stored order
is 1 for a dependency-free skill of that name and 1 + max of its
dependencies' stored orders otherwise. -/
def Coherent (skills : List Skill) (memo : Memo) : Prop :=
  ∀ n o, alookup memo n = some o →
    ∃ s, s ∈ skills ∧ s.name = n ∧
      (s.dependencies_name = [] → o = 1) ∧
      (s.dependencies_name ≠ [] →
        ∃ vs, List.Forall₂ (fun d v => alookup memo d = some v)
            s.dependencies_name vs ∧
          o = 1 + vs.foldl Nat.max 0)

/-! ## Concrete fixtures used by the closed theorems and witnesses -/

/-- A dependency-free skill `A`. -/
def sk_A : Skill := ⟨"A", [], "TA", true, 1, []⟩

/-- A skill `B` depending on `A`. -/
def sk_B : Skill := ⟨"B", ["A"], "TB", true, 1, []⟩

/-- A skill `C` depending on `A` and `B`. -/
def sk_C : Skill := ⟨"C", ["A", "B"], "TC", true, 1, []⟩

/-- An acyclic three-skill list. -/
def acyclicSkills : List Skill := [sk_A, sk_B, sk_C]

/-- A ranking witnessing acyclicity of `acyclicSkills`. -/
def rankABC : String → Nat :=
  fun n => if n = "A" then 0 else if n = "B" then 1 else 2

/-- Skill `A` of the two-cycle `A -> B -> A`. -/
def cyc_A : Skill := ⟨"A", ["B"], "TA", true, 1, []⟩

/-- Skill `B` of the two-cycle `A -> B -> A`. -/
def cyc_B : Skill := ⟨"B", ["A"], "TB", true, 1, []⟩

/-- A skill list whose dependency graph is the cycle `A -> B -> A`. -/
def cycleSkills : List Skill := [cyc_A, cyc_B]

/-- A vocabulary server whose second page overshoots the reported total:
cursor 0 serves 10 lexemes, any other cursor serves 20, and every page
reports `totalLexemes = 25`. -/
def overshootServer : Nat → VocabPage := fun i =>
  if i = 0 then ⟨List.replicate 10 "a", 25, 10⟩
  else ⟨List.replicate 20 "b", 25, 0⟩

/-- The spec's well-behaved fake server: pages of sizes 10, 10, 5 at
cursors 0, 10, 20 against `totalLexemes = 25`, with advancing cursors. -/
def pagedServer : Nat → VocabPage := fun i =>
  if i = 0 then ⟨List.replicate 10 "a", 25, 10⟩
  else if i = 10 then ⟨List.replicate 10 "b", 25, 20⟩
  else ⟨List.replicate 5 "c", 25, 30⟩

/-- French snapshot data: one learned skill (with a duplicated word) and
one unlearned skill. -/
def ldFr : LanguageData :=
  ⟨[⟨"basics-fr", [], "Basics", true, 1, ["bonjour", "merci", "bonjour"]⟩,
    ⟨"animals-fr", [], "Animals", false, 0, ["chat"]⟩]⟩

/-- High Valyrian snapshot data. -/
def ldHv : LanguageData := ⟨[⟨"basics-hv", [], "Basics HV", true, 1, ["kirimvose"]⟩]⟩

/-- A snapshot whose `language_data` has only the key `"fr"`. -/
def udFr : UserData := ⟨[("fr", ldFr)]⟩

/-- A snapshot whose `language_data` has only the key `"hv"`. -/
def udHv : UserData := ⟨[("hv", ldHv)]⟩

/-- A server that honours switch requests: after switching to `"hv"` the
reloaded snapshot contains `"hv"`. -/
def srvHonor : SwitchServer :=
  ⟨fun _ => 200, fun abbr => if abbr = "hv" then udHv else udFr⟩

/-- A server that silently ignores switch requests (HTTP 200, snapshot
unchanged). -/
def srvIgnore : SwitchServer := ⟨fun _ => 200, fun _ => udFr⟩

/-- Language data with two learned skills sharing the title `"T"`, one at
strength 1 and one at strength 1/2. -/
def ldDupTitles : LanguageData :=
  ⟨[⟨"s1", [], "T", true, 1, []⟩, ⟨"s2", [], "T", true, mkRat 1 2, []⟩]⟩

/-- Snapshot carrying `ldDupTitles` under `"fr"`. -/
def udDupTitles : UserData := ⟨[("fr", ldDupTitles)]⟩

/-- Language data with distinct titles: one golden skill, one reviewable
skill, one unlearned skill. -/
def ldMix : LanguageData :=
  ⟨[⟨"s1", [], "Alpha", true, 1, []⟩, ⟨"s2", [], "Beta", true, mkRat 1 2, []⟩,
    ⟨"s3", [], "Gamma", false, 0, []⟩]⟩

/-- Snapshot carrying `ldMix` under `"fr"`. -/
def udMix : UserData := ⟨[("fr", ldMix)]⟩

/-- A credential decoder recognising one token. -/
def decodeFix : String → Option String :=
  fun j => if j = "jwt-token" then some "uuid-1" else none

/-- A construction-time server that resolves `"uuid-1"` to `"alice"` and
answers every profile request with status 200. -/
def initSrvOk : InitServer :=
  ⟨fun u => if u = "uuid-1" then some "alice" else none, fun _ => 200, fun _ => udFr⟩

/-! ## Lemmas: association-list lookup -/

theorem alookup_cons (k : String) {α : Type} (v : α) (rest : List (String × α))
    (n : String) :
    alookup ((k, v) :: rest) n = if n = k then some v else alookup rest n := rfl

theorem alookup_cons_self {α : Type} (k : String) (v : α)
    (rest : List (String × α)) : alookup ((k, v) :: rest) k = some v := by
  simp [alookup]

theorem alookup_cons_ne {α : Type} {k n : String} (v : α)
    (rest : List (String × α)) (h : n ≠ k) :
    alookup ((k, v) :: rest) n = alookup rest n := by
  simp [alookup, h]

theorem alookup_cons_preserve {α : Type} {m : List (String × α)} {k : String}
    (w : α) (h0 : alookup m k = none) :
    ∀ n v, alookup m n = some v → alookup ((k, w) :: m) n = some v := by
  intro n v h
  by_cases hk : n = k
  · subst hk; rw [h0] at h; exact absurd h (by simp)
  · rw [alookup_cons_ne _ _ hk]; exact h

theorem alookup_cons_same {α : Type} {m : List (String × α)} {k : String}
    {v : α} (h : alookup m k = some v) :
    ∀ n, alookup ((k, v) :: m) n = alookup m n := by
  intro n
  by_cases hk : n = k
  · subst hk; rw [alookup_cons_self, h]
  · rw [alookup_cons_ne _ _ hk]

theorem MemoLe.refl (m : Memo) : MemoLe m m := fun _ _ h => h

theorem MemoLe.trans {m₁ m₂ m₃ : Memo} (h₁ : MemoLe m₁ m₂)
    (h₂ : MemoLe m₂ m₃) : MemoLe m₁ m₃ :=
  fun n o h => h₂ n o (h₁ n o h)

/-! ## Lemmas: the name → skill dictionary -/

theorem foldl_dict_none {n : String} :
    ∀ (l : List Skill) (acc : Option Skill),
      l.foldl (fun acc s => if s.name = n then some s else acc) acc = none →
      acc = none ∧ ∀ t ∈ l, t.name ≠ n := by
  intro l
  induction l with
  | nil => intro acc h; exact ⟨h, by simp⟩
  | cons t rest ih =>
    intro acc h
    simp only [List.foldl_cons] at h
    obtain ⟨hacc, hrest⟩ := ih _ h
    by_cases ht : t.name = n
    · rw [if_pos ht] at hacc; exact absurd hacc (by simp)
    · rw [if_neg ht] at hacc
      refine ⟨hacc, ?_⟩
      intro x hx
      rcases List.mem_cons.mp hx with rfl | hx
      · exact ht
      · exact hrest x hx

theorem skills_dict_mem {skills : List Skill} {n : String} {s : Skill}
    (h : skills_dict skills n = some s) : s ∈ skills ∧ s.name = n := by
  unfold skills_dict at h
  have aux : ∀ (l : List Skill) (acc : Option Skill),
      l.foldl (fun acc s => if s.name = n then some s else acc) acc = some s →
      (s ∈ l ∧ s.name = n) ∨ acc = some s := by
    intro l
    induction l with
    | nil => intro acc h; exact Or.inr h
    | cons t rest ih =>
      intro acc h
      simp only [List.foldl_cons] at h
      rcases ih _ h with ⟨hmem, hname⟩ | hacc
      · exact Or.inl ⟨List.mem_cons_of_mem _ hmem, hname⟩
      · by_cases ht : t.name = n
        · rw [if_pos ht] at hacc
          have : t = s := by injection hacc
          subst this
          exact Or.inl ⟨List.mem_cons_self _ _, ht⟩
        · rw [if_neg ht] at hacc; exact Or.inr hacc
  rcases aux skills none h with h' | h'
  · exact h'
  · exact absurd h' (by simp)

theorem skills_dict_isSome {skills : List Skill} {n : String}
    (h : ∃ t ∈ skills, t.name = n) : ∃ sk, skills_dict skills n = some sk := by
  cases hd : skills_dict skills n with
  | some sk => exact ⟨sk, rfl⟩
  | none =>
    obtain ⟨t, ht, hn⟩ := h
    unfold skills_dict at hd
    obtain ⟨-, hall⟩ := foldl_dict_none skills none hd
    exact absurd hn (hall t ht)

theorem skills_dict_keep {n : String} :
    ∀ (l : List Skill) (acc : Option Skill), (∀ t ∈ l, t.name ≠ n) →
      l.foldl (fun acc u => if u.name = n then some u else acc) acc = acc := by
  intro l
  induction l with
  | nil => intro acc _; rfl
  | cons t rest ih =>
    intro acc hall
    have ht : t.name ≠ n := hall t (List.mem_cons_self _ _)
    simp only [List.foldl_cons, if_neg ht]
    exact ih acc (fun x hx => hall x (List.mem_cons_of_mem _ hx))

theorem skills_dict_self :
    ∀ (skills : List Skill), (skills.map Skill.name).Nodup →
      ∀ s ∈ skills, skills_dict skills s.name = some s := by
  intro skills
  induction skills with
  | nil => intro _ s hs; exact absurd hs (by simp)
  | cons t rest ih =>
    intro hnodup s hs
    simp only [List.map_cons, List.nodup_cons] at hnodup
    unfold skills_dict
    simp only [List.foldl_cons]
    rcases List.mem_cons.mp hs with hs | hs
    · subst hs
      rw [if_pos rfl]
      apply skills_dict_keep
      intro x hx hxn
      exact hnodup.1 (by rw [← hxn]; exact List.mem_map_of_mem Skill.name hx)
    · have ht : t.name ≠ s.name := by
        intro he
        exact hnodup.1 (by rw [he]; exact List.mem_map_of_mem Skill.name hs)
      rw [if_neg ht]
      have h' := ih hnodup.2 s hs
      unfold skills_dict at h'
      exact h'

/-- With pairwise-distinct names, two skills of the list sharing a name
are the same skill. -/
theorem name_injective {skills : List Skill}
    (hnodup : (skills.map Skill.name).Nodup) {s t : Skill}
    (hs : s ∈ skills) (ht : t ∈ skills) (h : s.name = t.name) : s = t := by
  have h1 := skills_dict_self skills hnodup s hs
  have h2 := skills_dict_self skills hnodup t ht
  rw [h] at h1
  rw [h1] at h2
  injection h2

/-! ## Lemmas: step equations of the ordinal computation -/

theorem getSkillOrdinal_zero (dict : String → Option Skill) (memo : Memo)
    (skill : Skill) (breadcrumbs : List String) :
    getSkillOrdinal dict 0 memo skill breadcrumbs = .error .outOfFuel := rfl

theorem getSkillOrdinal_succ (dict : String → Option Skill) (fuel : Nat)
    (memo : Memo) (skill : Skill) (breadcrumbs : List String) :
    getSkillOrdinal dict (fuel + 1) memo skill breadcrumbs =
      if skill.name ∈ breadcrumbs then
        .error (.DependencyCycleError (breadcrumbs ++ [skill.name]))
      else
        match alookup memo skill.name with
        | some o => .ok (o, memo)
        | none =>
          if skill.dependencies_name = [] then
            .ok (1, (skill.name, 1) :: memo)
          else
            match getSkillOrdinalList dict fuel memo skill.dependencies_name
                (breadcrumbs ++ [skill.name]) with
            | .error e => .error e
            | .ok (vals, memo') =>
              .ok (1 + vals.foldl Nat.max 0,
                (skill.name, 1 + vals.foldl Nat.max 0) :: memo') := rfl

theorem getSkillOrdinalList_nil (dict : String → Option Skill) (fuel : Nat)
    (memo : Memo) (breadcrumbs : List String) :
    getSkillOrdinalList dict fuel memo [] breadcrumbs = .ok ([], memo) := rfl

theorem getSkillOrdinalList_cons (dict : String → Option Skill) (fuel : Nat)
    (memo : Memo) (n : String) (ns : List String)
    (breadcrumbs : List String) :
    getSkillOrdinalList dict fuel memo (n :: ns) breadcrumbs =
      match dict n with
      | none => .error (.KeyError n)
      | some sk =>
        match getSkillOrdinal dict fuel memo sk breadcrumbs with
        | .error e => .error e
        | .ok (v, memo') =>
          match getSkillOrdinalList dict fuel memo' ns breadcrumbs with
          | .error e => .error e
          | .ok (vs, memo'') => .ok (v :: vs, memo'') := rfl

/-! ## Lemmas: execution facts of the ordinal computation -/

theorem except_ok_pair {γ α β : Type} {a x : α} {b y : β}
    (h : (Except.ok (a, b) : Except γ (α × β)) = Except.ok (x, y)) :
    a = x ∧ b = y := by
  injection h with h'
  exact ⟨congrArg Prod.fst h', congrArg Prod.snd h'⟩

/-- List-level execution facts, assuming the single-skill facts at the
same fuel (the mutual induction is threaded manually: the list function
calls the single-skill function at the same fuel). -/
theorem ordinalList_ok_facts_of (dict : String → Option Skill)
    (hdict : ∀ n sk, dict n = some sk → sk.name = n) (fuel : Nat)
    (hsingle : ∀ memo s crumbs o memo',
      getSkillOrdinal dict fuel memo s crumbs = .ok (o, memo') →
      MemoLe memo memo' ∧ alookup memo' s.name = some o ∧
      ∀ c ∈ crumbs, alookup memo' c = alookup memo c) :
    ∀ (ns : List String) (memo : Memo) (crumbs : List String) vs memo',
      getSkillOrdinalList dict fuel memo ns crumbs = .ok (vs, memo') →
      MemoLe memo memo' ∧ (∀ c ∈ crumbs, alookup memo' c = alookup memo c) ∧
      List.Forall₂ (fun n v => alookup memo' n = some v) ns vs := by
  intro ns
  induction ns with
  | nil =>
    intro memo crumbs vs memo' h
    rw [getSkillOrdinalList_nil] at h
    obtain ⟨h1, h2⟩ := except_ok_pair h
    subst h1; subst h2
    exact ⟨MemoLe.refl _, fun c _ => rfl, List.Forall₂.nil⟩
  | cons n rest ih =>
    intro memo crumbs vs memo' h
    rw [getSkillOrdinalList_cons] at h
    split at h
    · exact Except.noConfusion h
    · rename_i sk hd
      split at h
      · exact Except.noConfusion h
      · rename_i p v memo₁ h1
        split at h
        · exact Except.noConfusion h
        · rename_i q vs₂ memo₂ h2
          obtain ⟨hv, hm⟩ := except_ok_pair h
          subst hv; subst hm
          obtain ⟨le1, self1, pres1⟩ := hsingle memo sk crumbs v memo₁ h1
          obtain ⟨le2, pres2, fa2⟩ := ih memo₁ crumbs vs₂ memo₂ h2
          refine ⟨le1.trans le2, ?_, ?_⟩
          · intro c hc
            rw [pres2 c hc, pres1 c hc]
          · refine List.Forall₂.cons ?_ fa2
            have hname : sk.name = n := hdict n sk hd
            rw [← hname]
            exact le2 sk.name v self1

/-- Execution facts of a successful `getSkillOrdinal` call: the memo only
grows, the computed skill's order is stored, and no association of a name
on the breadcrumb stack changes. -/
theorem ordinal_ok_facts (dict : String → Option Skill)
    (hdict : ∀ n sk, dict n = some sk → sk.name = n) :
    ∀ (fuel : Nat) memo s crumbs o memo',
      getSkillOrdinal dict fuel memo s crumbs = .ok (o, memo') →
      MemoLe memo memo' ∧ alookup memo' s.name = some o ∧
      ∀ c ∈ crumbs, alookup memo' c = alookup memo c := by
  intro fuel
  induction fuel with
  | zero =>
    intro memo s crumbs o memo' h
    rw [getSkillOrdinal_zero] at h
    exact Except.noConfusion h
  | succ fuel ih =>
    intro memo s crumbs o memo' h
    rw [getSkillOrdinal_succ] at h
    split at h
    · exact Except.noConfusion h
    · rename_i hbc
      split at h
      · rename_i o₀ hm
        obtain ⟨ho, hmem⟩ := except_ok_pair h
        subst ho; subst hmem
        exact ⟨MemoLe.refl _, hm, fun c _ => rfl⟩
      · rename_i hm
        split at h
        · rename_i hdep
          obtain ⟨ho, hmem⟩ := except_ok_pair h
          subst ho; subst hmem
          refine ⟨alookup_cons_preserve _ hm, alookup_cons_self _ _ _, ?_⟩
          intro c hc
          exact alookup_cons_ne _ _ (fun he => hbc (he ▸ hc))
        · rename_i hdep
          split at h
          · exact Except.noConfusion h
          · rename_i p vals memo₁ hlist
            obtain ⟨ho, hmem⟩ := except_ok_pair h
            subst ho; subst hmem
            obtain ⟨le1, pres1, -⟩ :=
              ordinalList_ok_facts_of dict hdict fuel ih
                s.dependencies_name memo (crumbs ++ [s.name]) vals memo₁ hlist
            have hself : alookup memo₁ s.name = none := by
              have hp := pres1 s.name (by simp)
              rw [hp, hm]
            refine ⟨?_, alookup_cons_self _ _ _, ?_⟩
            · exact le1.trans (fun n o h' => alookup_cons_preserve _ hself n o h')
            · intro c hc
              have hcn : c ≠ s.name := fun he => hbc (he ▸ hc)
              rw [alookup_cons_ne _ _ hcn]
              exact pres1 c (by simp [hc])

/-- List-level execution facts (corollary). -/
theorem ordinalList_ok_facts (dict : String → Option Skill)
    (hdict : ∀ n sk, dict n = some sk → sk.name = n) (fuel : Nat) :
    ∀ (ns : List String) (memo : Memo) (crumbs : List String) vs memo',
      getSkillOrdinalList dict fuel memo ns crumbs = .ok (vs, memo') →
      MemoLe memo memo' ∧ (∀ c ∈ crumbs, alookup memo' c = alookup memo c) ∧
      List.Forall₂ (fun n v => alookup memo' n = some v) ns vs :=
  ordinalList_ok_facts_of dict hdict fuel (ordinal_ok_facts dict hdict fuel)

/-! ## Lemmas: a ranking function rules out the cycle error -/

theorem ordinalList_no_cycle_of (skills : List Skill) (rank : String → Nat)
    (hrank : ∀ s ∈ skills, ∀ d ∈ s.dependencies_name, rank d < rank s.name)
    (fuel : Nat)
    (hsingle : ∀ (memo : Memo) (s : Skill) (crumbs : List String),
      (∀ d ∈ s.dependencies_name, rank d < rank s.name) →
      (∀ c ∈ crumbs, rank s.name < rank c) →
      ∀ ch, getSkillOrdinal (skills_dict skills) fuel memo s crumbs ≠
        .error (.DependencyCycleError ch)) :
    ∀ (ns : List String) (memo : Memo) (crumbs : List String),
      (∀ d ∈ ns, ∀ c ∈ crumbs, rank d < rank c) →
      ∀ ch, getSkillOrdinalList (skills_dict skills) fuel memo ns crumbs ≠
        .error (.DependencyCycleError ch) := by
  intro ns
  induction ns with
  | nil =>
    intro memo crumbs _ ch h
    rw [getSkillOrdinalList_nil] at h
    exact Except.noConfusion h
  | cons d rest ih =>
    intro memo crumbs hns ch h
    rw [getSkillOrdinalList_cons] at h
    split at h
    · injection h with h'
      exact DuoError.noConfusion h'
    · rename_i sk hd
      obtain ⟨hskmem, hskname⟩ := skills_dict_mem hd
      split at h
      · rename_i e h1
        injection h with h'
        subst h'
        exact hsingle memo sk crumbs (hskname ▸ hrank sk hskmem)
          (fun c hc => by
            rw [hskname]
            exact hns d (List.mem_cons_self _ _) c hc) ch h1
      · rename_i p v memo₁ h1
        split at h
        · rename_i e h2
          injection h with h'
          subst h'
          exact ih memo₁ crumbs
            (fun x hx c hc => hns x (List.mem_cons_of_mem _ hx) c hc) ch h2
        · exact Except.noConfusion h

theorem ordinal_no_cycle (skills : List Skill) (rank : String → Nat)
    (hrank : ∀ s ∈ skills, ∀ d ∈ s.dependencies_name, rank d < rank s.name) :
    ∀ (fuel : Nat) (memo : Memo) (s : Skill) (crumbs : List String),
      (∀ d ∈ s.dependencies_name, rank d < rank s.name) →
      (∀ c ∈ crumbs, rank s.name < rank c) →
      ∀ ch, getSkillOrdinal (skills_dict skills) fuel memo s crumbs ≠
        .error (.DependencyCycleError ch) := by
  intro fuel
  induction fuel with
  | zero =>
    intro memo s crumbs _ _ ch h
    rw [getSkillOrdinal_zero] at h
    injection h with h'
    exact DuoError.noConfusion h'
  | succ fuel ih =>
    intro memo s crumbs hs hcr ch h
    rw [getSkillOrdinal_succ] at h
    split at h
    · rename_i hbc
      exact absurd (hcr s.name hbc) (lt_irrefl _)
    · rename_i hbc
      split at h
      · exact Except.noConfusion h
      · rename_i hm
        split at h
        · exact Except.noConfusion h
        · rename_i hdep
          split at h
          · rename_i e hlist
            injection h with h'
            subst h'
            refine ordinalList_no_cycle_of skills rank hrank fuel ih
              s.dependencies_name memo (crumbs ++ [s.name]) ?_ ch hlist
            intro x hx c hc
            rcases List.mem_append.mp hc with hc | hc
            · exact lt_trans (hs x hx) (hcr c hc)
            · rw [List.mem_singleton.mp hc]
              exact hs x hx
          · exact Except.noConfusion h

/-! ## Lemmas: with closed dependencies the only error is the cycle error -/

theorem mem_skillKeys_iff {skills : List Skill} {n : String} :
    n ∈ (skills.map Skill.name).dedup ↔ ∃ t ∈ skills, t.name = n := by
  rw [List.mem_dedup, List.mem_map]

theorem skillKeys_length_le (skills : List Skill) :
    (skills.map Skill.name).dedup.length ≤ skills.length := by
  have h := (List.dedup_sublist (skills.map Skill.name)).length_le
  simpa using h

theorem ordinalList_ok_or_cycle_of (skills : List Skill)
    (_hclosed : ∀ s ∈ skills, ∀ d ∈ s.dependencies_name,
      ∃ t ∈ skills, t.name = d) (fuel : Nat)
    (hsingle : ∀ (memo : Memo) (s : Skill) (crumbs : List String),
      s ∈ skills → crumbs.Nodup →
      (∀ c ∈ crumbs, c ∈ (skills.map Skill.name).dedup) →
      (skills.map Skill.name).dedup.length - crumbs.length < fuel →
      (∃ o memo', getSkillOrdinal (skills_dict skills) fuel memo s crumbs =
        .ok (o, memo')) ∨
      (∃ ch, getSkillOrdinal (skills_dict skills) fuel memo s crumbs =
        .error (.DependencyCycleError ch))) :
    ∀ (ns : List String) (memo : Memo) (crumbs : List String),
      (∀ d ∈ ns, d ∈ (skills.map Skill.name).dedup) → crumbs.Nodup →
      (∀ c ∈ crumbs, c ∈ (skills.map Skill.name).dedup) →
      (skills.map Skill.name).dedup.length - crumbs.length < fuel →
      (∃ vs memo', getSkillOrdinalList (skills_dict skills) fuel memo ns crumbs =
        .ok (vs, memo')) ∨
      (∃ ch, getSkillOrdinalList (skills_dict skills) fuel memo ns crumbs =
        .error (.DependencyCycleError ch)) := by
  intro ns
  induction ns with
  | nil =>
    intro memo crumbs _ _ _ _
    exact Or.inl ⟨[], memo, getSkillOrdinalList_nil _ _ _ _⟩
  | cons d rest ih =>
    intro memo crumbs hns hnd hck hlt
    obtain ⟨sk, hd⟩ := skills_dict_isSome
      (mem_skillKeys_iff.mp (hns d (List.mem_cons_self _ _)))
    have hskmem := (skills_dict_mem hd).1
    rcases hsingle memo sk crumbs hskmem hnd hck hlt with ⟨o, memo₁, h1⟩ | ⟨ch, h1⟩
    · rcases ih memo₁ crumbs
        (fun x hx => hns x (List.mem_cons_of_mem _ hx)) hnd hck hlt with
        ⟨vs, memo₂, h2⟩ | ⟨ch, h2⟩
      · exact Or.inl ⟨o :: vs, memo₂, by
          simp only [getSkillOrdinalList_cons, hd, h1, h2]⟩
      · exact Or.inr ⟨ch, by simp only [getSkillOrdinalList_cons, hd, h1, h2]⟩
    · exact Or.inr ⟨ch, by simp only [getSkillOrdinalList_cons, hd, h1]⟩

theorem ordinal_ok_or_cycle (skills : List Skill)
    (hclosed : ∀ s ∈ skills, ∀ d ∈ s.dependencies_name,
      ∃ t ∈ skills, t.name = d) :
    ∀ (fuel : Nat) (memo : Memo) (s : Skill) (crumbs : List String),
      s ∈ skills → crumbs.Nodup →
      (∀ c ∈ crumbs, c ∈ (skills.map Skill.name).dedup) →
      (skills.map Skill.name).dedup.length - crumbs.length < fuel →
      (∃ o memo', getSkillOrdinal (skills_dict skills) fuel memo s crumbs =
        .ok (o, memo')) ∨
      (∃ ch, getSkillOrdinal (skills_dict skills) fuel memo s crumbs =
        .error (.DependencyCycleError ch)) := by
  intro fuel
  induction fuel with
  | zero =>
    intro memo s crumbs _ _ _ hlt
    exact absurd hlt (Nat.not_lt_zero _)
  | succ fuel ih =>
    intro memo s crumbs hsmem hnd hck hlt
    by_cases hbc : s.name ∈ crumbs
    · refine Or.inr ⟨crumbs ++ [s.name], ?_⟩
      rw [getSkillOrdinal_succ, if_pos hbc]
    · cases hm : alookup memo s.name with
      | some o =>
        refine Or.inl ⟨o, memo, ?_⟩
        rw [getSkillOrdinal_succ, if_neg hbc]
        simp only [hm]
      | none =>
        by_cases hdep : s.dependencies_name = []
        · refine Or.inl ⟨1, (s.name, 1) :: memo, ?_⟩
          rw [getSkillOrdinal_succ, if_neg hbc]
          simp only [hm, if_pos hdep]
        · have hsname : s.name ∈ (skills.map Skill.name).dedup :=
            mem_skillKeys_iff.mpr ⟨s, hsmem, rfl⟩
          have hnd' : (crumbs ++ [s.name]).Nodup := by
            rw [List.nodup_append]
            exact ⟨hnd, List.nodup_singleton _, by
              intro a ha hb
              rw [List.mem_singleton.mp hb] at ha
              exact hbc ha⟩
          have hck' : ∀ c ∈ crumbs ++ [s.name],
              c ∈ (skills.map Skill.name).dedup := by
            intro c hc
            rcases List.mem_append.mp hc with hc | hc
            · exact hck c hc
            · rw [List.mem_singleton.mp hc]; exact hsname
          have hle : (crumbs ++ [s.name]).length ≤
              (skills.map Skill.name).dedup.length :=
            (hnd'.subperm hck').length_le
          have hlt' : (skills.map Skill.name).dedup.length -
              (crumbs ++ [s.name]).length < fuel := by
            simp only [List.length_append, List.length_singleton] at hle ⊢
            omega
          rcases ordinalList_ok_or_cycle_of skills hclosed fuel ih
            s.dependencies_name memo (crumbs ++ [s.name])
            (fun x hx => by
              obtain ⟨t, ht, htn⟩ := hclosed s hsmem x hx
              exact mem_skillKeys_iff.mpr ⟨t, ht, htn⟩)
            hnd' hck' hlt' with ⟨vs, memo₁, h1⟩ | ⟨ch, h1⟩
          · refine Or.inl ⟨1 + vs.foldl Nat.max 0, (s.name, 1 + vs.foldl Nat.max 0) :: memo₁, ?_⟩
            rw [getSkillOrdinal_succ, if_neg hbc]
            simp only [hm, if_neg hdep, h1]
          · refine Or.inr ⟨ch, ?_⟩
            rw [getSkillOrdinal_succ, if_neg hbc]
            simp only [hm, if_neg hdep, h1]

/-! ## Lemmas: coherence of the memo table -/

theorem coherent_ext {skills : List Skill} {m m' : Memo}
    (he : ∀ n, alookup m' n = alookup m n) (hco : Coherent skills m) :
    Coherent skills m' := by
  intro n o hl
  rw [he n] at hl
  obtain ⟨s, hs, hn, h1, h2⟩ := hco n o hl
  refine ⟨s, hs, hn, h1, ?_⟩
  intro hne
  obtain ⟨vs, hfa, hsum⟩ := h2 hne
  exact ⟨vs, hfa.imp (fun d v hv => by rw [he d]; exact hv), hsum⟩

theorem coherent_cons {skills : List Skill} {memo : Memo} (s : Skill) (o : Nat)
    (hs : s ∈ skills) (hnone : alookup memo s.name = none)
    (hco : Coherent skills memo)
    (h1 : s.dependencies_name = [] → o = 1)
    (h2 : s.dependencies_name ≠ [] →
      ∃ vs, List.Forall₂ (fun d v => alookup memo d = some v)
        s.dependencies_name vs ∧ o = 1 + vs.foldl Nat.max 0) :
    Coherent skills ((s.name, o) :: memo) := by
  intro n o' hl
  by_cases hn : n = s.name
  · subst hn
    rw [alookup_cons_self] at hl
    have ho : o' = o := by injection hl with h'; exact h'.symm
    subst ho
    refine ⟨s, hs, rfl, h1, ?_⟩
    intro hne
    obtain ⟨vs, hfa, hsum⟩ := h2 hne
    exact ⟨vs, hfa.imp (fun d v hv => alookup_cons_preserve _ hnone d v hv), hsum⟩
  · rw [alookup_cons_ne _ _ hn] at hl
    obtain ⟨t, ht, htn, ht1, ht2⟩ := hco n o' hl
    refine ⟨t, ht, htn, ht1, ?_⟩
    intro hne
    obtain ⟨vs, hfa, hsum⟩ := ht2 hne
    exact ⟨vs, hfa.imp (fun d v hv => alookup_cons_preserve _ hnone d v hv), hsum⟩

theorem ordinalList_coherent_of (skills : List Skill) (fuel : Nat)
    (hsingle : ∀ (memo : Memo) (s : Skill) (crumbs : List String) o memo',
      s ∈ skills → Coherent skills memo →
      getSkillOrdinal (skills_dict skills) fuel memo s crumbs = .ok (o, memo') →
      Coherent skills memo') :
    ∀ (ns : List String) (memo : Memo) (crumbs : List String) vs memo',
      Coherent skills memo →
      getSkillOrdinalList (skills_dict skills) fuel memo ns crumbs =
        .ok (vs, memo') →
      Coherent skills memo' := by
  intro ns
  induction ns with
  | nil =>
    intro memo crumbs vs memo' hco h
    rw [getSkillOrdinalList_nil] at h
    obtain ⟨-, h2⟩ := except_ok_pair h
    exact h2 ▸ hco
  | cons d rest ih =>
    intro memo crumbs vs memo' hco h
    rw [getSkillOrdinalList_cons] at h
    split at h
    · exact Except.noConfusion h
    · rename_i sk hd
      split at h
      · exact Except.noConfusion h
      · rename_i p v memo₁ h1
        split at h
        · exact Except.noConfusion h
        · rename_i q vs₂ memo₂ h2
          obtain ⟨-, hm⟩ := except_ok_pair h
          subst hm
          exact ih memo₁ crumbs vs₂ memo₂
            (hsingle memo sk crumbs v memo₁ (skills_dict_mem hd).1 hco h1) h2

theorem ordinal_coherent (skills : List Skill) :
    ∀ (fuel : Nat) (memo : Memo) (s : Skill) (crumbs : List String) o memo',
      s ∈ skills → Coherent skills memo →
      getSkillOrdinal (skills_dict skills) fuel memo s crumbs = .ok (o, memo') →
      Coherent skills memo' := by
  intro fuel
  induction fuel with
  | zero =>
    intro memo s crumbs o memo' _ _ h
    rw [getSkillOrdinal_zero] at h
    exact Except.noConfusion h
  | succ fuel ih =>
    intro memo s crumbs o memo' hsmem hco h
    rw [getSkillOrdinal_succ] at h
    split at h
    · exact Except.noConfusion h
    · rename_i hbc
      split at h
      · rename_i o₀ hm
        obtain ⟨-, hmem⟩ := except_ok_pair h
        exact hmem ▸ hco
      · rename_i hm
        split at h
        · rename_i hdep
          obtain ⟨ho, hmem⟩ := except_ok_pair h
          subst hmem
          exact coherent_cons s 1 hsmem hm hco (fun _ => rfl)
            (fun hne => absurd hdep hne)
        · rename_i hdep
          split at h
          · exact Except.noConfusion h
          · rename_i p vals memo₁ hlist
            obtain ⟨ho, hmem⟩ := except_ok_pair h
            subst hmem
            have hdict : ∀ n sk, skills_dict skills n = some sk → sk.name = n :=
              fun n sk hd => (skills_dict_mem hd).2
            obtain ⟨le1, pres1, fa1⟩ :=
              ordinalList_ok_facts (skills_dict skills) hdict fuel
                s.dependencies_name memo (crumbs ++ [s.name]) vals memo₁ hlist
            have hself : alookup memo₁ s.name = none := by
              have hp := pres1 s.name (by simp)
              rw [hp, hm]
            have hco₁ : Coherent skills memo₁ :=
              ordinalList_coherent_of skills fuel ih
                s.dependencies_name memo (crumbs ++ [s.name]) vals memo₁ hco hlist
            exact coherent_cons s (1 + vals.foldl Nat.max 0) hsmem hself hco₁
              (fun he => absurd he hdep) (fun _ => ⟨vals, fa1, rfl⟩)

theorem ordinalList_coherent (skills : List Skill) (fuel : Nat) :
    ∀ (ns : List String) (memo : Memo) (crumbs : List String) vs memo',
      Coherent skills memo →
      getSkillOrdinalList (skills_dict skills) fuel memo ns crumbs =
        .ok (vs, memo') →
      Coherent skills memo' :=
  ordinalList_coherent_of skills fuel (ordinal_coherent skills fuel)

/-! ## Lemmas: shape of a reported cycle chain -/

theorem ordinalList_cycle_shape_of (dict : String → Option Skill) (fuel : Nat)
    (hsingle : ∀ (memo : Memo) (s : Skill) (crumbs : List String) ch,
      getSkillOrdinal dict fuel memo s crumbs =
        .error (.DependencyCycleError ch) →
      ∃ xs x, ch = xs ++ [x] ∧ x ∈ xs) :
    ∀ (ns : List String) (memo : Memo) (crumbs : List String) ch,
      getSkillOrdinalList dict fuel memo ns crumbs =
        .error (.DependencyCycleError ch) →
      ∃ xs x, ch = xs ++ [x] ∧ x ∈ xs := by
  intro ns
  induction ns with
  | nil =>
    intro memo crumbs ch h
    rw [getSkillOrdinalList_nil] at h
    exact Except.noConfusion h
  | cons d rest ih =>
    intro memo crumbs ch h
    rw [getSkillOrdinalList_cons] at h
    split at h
    · injection h with h'
      exact DuoError.noConfusion h'
    · rename_i sk hd
      split at h
      · rename_i e h1
        injection h with h'
        subst h'
        exact hsingle memo sk crumbs ch h1
      · rename_i p v memo₁ h1
        split at h
        · rename_i e h2
          injection h with h'
          subst h'
          exact ih memo₁ crumbs ch h2
        · exact Except.noConfusion h

theorem ordinal_cycle_shape (dict : String → Option Skill) :
    ∀ (fuel : Nat) (memo : Memo) (s : Skill) (crumbs : List String) ch,
      getSkillOrdinal dict fuel memo s crumbs =
        .error (.DependencyCycleError ch) →
      ∃ xs x, ch = xs ++ [x] ∧ x ∈ xs := by
  intro fuel
  induction fuel with
  | zero =>
    intro memo s crumbs ch h
    rw [getSkillOrdinal_zero] at h
    injection h with h'
    exact DuoError.noConfusion h'
  | succ fuel ih =>
    intro memo s crumbs ch h
    rw [getSkillOrdinal_succ] at h
    split at h
    · rename_i hbc
      injection h with h'
      injection h' with h''
      exact ⟨crumbs, s.name, h''.symm, hbc⟩
    · rename_i hbc
      split at h
      · exact Except.noConfusion h
      · rename_i hm
        split at h
        · exact Except.noConfusion h
        · rename_i hdep
          split at h
          · rename_i e hlist
            injection h with h'
            subst h'
            exact ordinalList_cycle_shape_of dict fuel ih
              s.dependencies_name memo (crumbs ++ [s.name]) ch hlist
          · exact Except.noConfusion h

/-! ## Lemmas: the per-skill loop of `_compute_dependency_order_func` -/

theorem computeOrdersAux_facts (dict : String → Option Skill)
    (hdict : ∀ n sk, dict n = some sk → sk.name = n) (fuel : Nat) :
    ∀ (pending : List Skill) (memo final : Memo),
      computeOrdersAux dict fuel memo pending = .ok final →
      MemoLe memo final ∧ ∀ s ∈ pending, ∃ o, alookup final s.name = some o := by
  intro pending
  induction pending with
  | nil =>
    intro memo final h
    injection h with h'
    subst h'
    exact ⟨MemoLe.refl _, by simp⟩
  | cons s rest ih =>
    intro memo final h
    unfold computeOrdersAux at h
    split at h
    · exact Except.noConfusion h
    · rename_i p o memo₁ h1
      obtain ⟨le1, self1, -⟩ := ordinal_ok_facts dict hdict fuel memo s [] o memo₁ h1
      have hsame : ∀ x, alookup ((s.name, o) :: memo₁) x = alookup memo₁ x :=
        alookup_cons_same self1
      obtain ⟨le2, hall⟩ := ih ((s.name, o) :: memo₁) final h
      have le2' : MemoLe memo₁ final := fun n v hv => le2 n v (by rw [hsame]; exact hv)
      refine ⟨le1.trans le2', ?_⟩
      intro t ht
      rcases List.mem_cons.mp ht with rfl | ht
      · exact ⟨o, le2 t.name o (alookup_cons_self _ _ _)⟩
      · exact hall t ht

theorem computeOrdersAux_coherent (skills : List Skill) (fuel : Nat) :
    ∀ (pending : List Skill) (memo final : Memo),
      (∀ s ∈ pending, s ∈ skills) → Coherent skills memo →
      computeOrdersAux (skills_dict skills) fuel memo pending = .ok final →
      Coherent skills final := by
  intro pending
  induction pending with
  | nil =>
    intro memo final _ hco h
    injection h with h'
    exact h' ▸ hco
  | cons s rest ih =>
    intro memo final hmem hco h
    unfold computeOrdersAux at h
    split at h
    · exact Except.noConfusion h
    · rename_i p o memo₁ h1
      have hco₁ : Coherent skills memo₁ :=
        ordinal_coherent skills fuel memo s [] o memo₁
          (hmem s (List.mem_cons_self _ _)) hco h1
      have hdict : ∀ n sk, skills_dict skills n = some sk → sk.name = n :=
        fun n sk hd => (skills_dict_mem hd).2
      obtain ⟨-, self1, -⟩ := ordinal_ok_facts (skills_dict skills) hdict fuel
        memo s [] o memo₁ h1
      have hco₂ : Coherent skills ((s.name, o) :: memo₁) :=
        coherent_ext (alookup_cons_same self1) hco₁
      exact ih ((s.name, o) :: memo₁) final
        (fun t ht => hmem t (List.mem_cons_of_mem _ ht)) hco₂ h

theorem computeOrdersAux_ok_or_cycle (skills : List Skill)
    (hclosed : ∀ s ∈ skills, ∀ d ∈ s.dependencies_name,
      ∃ t ∈ skills, t.name = d) (fuel : Nat)
    (hfuel : (skills.map Skill.name).dedup.length < fuel) :
    ∀ (pending : List Skill) (memo : Memo),
      (∀ s ∈ pending, s ∈ skills) →
      (∃ final, computeOrdersAux (skills_dict skills) fuel memo pending =
        .ok final) ∨
      (∃ ch, computeOrdersAux (skills_dict skills) fuel memo pending =
        .error (.DependencyCycleError ch)) := by
  intro pending
  induction pending with
  | nil => intro memo _; exact Or.inl ⟨memo, rfl⟩
  | cons s rest ih =>
    intro memo hmem
    rcases ordinal_ok_or_cycle skills hclosed fuel memo s []
      (hmem s (List.mem_cons_self _ _)) (List.nodup_nil) (by simp)
      (by simpa using hfuel) with ⟨o, memo₁, h1⟩ | ⟨ch, h1⟩
    · rcases ih ((s.name, o) :: memo₁)
        (fun t ht => hmem t (List.mem_cons_of_mem _ ht)) with
        ⟨final, h2⟩ | ⟨ch, h2⟩
      · exact Or.inl ⟨final, by
          unfold computeOrdersAux
          simp only [h1, h2]⟩
      · exact Or.inr ⟨ch, by
          unfold computeOrdersAux
          simp only [h1, h2]⟩
    · exact Or.inr ⟨ch, by
        unfold computeOrdersAux
        simp only [h1]⟩

theorem computeOrdersAux_error_cycle_shape (dict : String → Option Skill)
    (fuel : Nat) :
    ∀ (pending : List Skill) (memo : Memo) ch,
      computeOrdersAux dict fuel memo pending =
        .error (.DependencyCycleError ch) →
      ∃ xs x, ch = xs ++ [x] ∧ x ∈ xs := by
  intro pending
  induction pending with
  | nil =>
    intro memo ch h
    exact Except.noConfusion h
  | cons s rest ih =>
    intro memo ch h
    unfold computeOrdersAux at h
    split at h
    · rename_i e h1
      injection h with h'
      subst h'
      exact ordinal_cycle_shape dict fuel memo s [] ch h1
    · rename_i p o memo₁ h1
      exact ih ((s.name, o) :: memo₁) ch h

/-! ## Lemmas: `List.foldl Nat.max` is the maximum of a non-empty list -/

theorem foldl_max_ge_seed : ∀ (l : List Nat) (seed : Nat),
    seed ≤ l.foldl Nat.max seed := by
  intro l
  induction l with
  | nil => intro seed; exact le_refl _
  | cons x xs ih =>
    intro seed
    exact le_trans (Nat.le_max_left seed x) (ih (Nat.max seed x))

theorem mem_le_foldl_max : ∀ (l : List Nat) (seed x : Nat), x ∈ l →
    x ≤ l.foldl Nat.max seed := by
  intro l
  induction l with
  | nil => intro seed x hx; exact absurd hx (List.not_mem_nil _)
  | cons y ys ih =>
    intro seed x hx
    rcases List.mem_cons.mp hx with rfl | hx
    · exact le_trans (Nat.le_max_right seed x) (foldl_max_ge_seed ys _)
    · exact ih _ x hx

theorem foldl_max_eq_or_mem : ∀ (l : List Nat) (seed : Nat),
    l.foldl Nat.max seed = seed ∨ l.foldl Nat.max seed ∈ l := by
  intro l
  induction l with
  | nil => intro seed; exact Or.inl rfl
  | cons x xs ih =>
    intro seed
    rcases ih (Nat.max seed x) with h | h
    · rcases Nat.le_total x seed with hx | hx
      · rw [List.foldl_cons, h]
        exact Or.inl (Nat.max_eq_left hx)
      · have hmx : Nat.max seed x = x := Nat.max_eq_right hx
        rw [List.foldl_cons, h, hmx]
        exact Or.inr (List.mem_cons_self _ _)
    · exact Or.inr (List.mem_cons_of_mem _ (by rw [List.foldl_cons]; exact h))

/-! ## Lemmas: `List.Forall₂` membership projections -/

theorem forall2_mem_left {α β : Type} {R : α → β → Prop} :
    ∀ {l₁ : List α} {l₂ : List β}, List.Forall₂ R l₁ l₂ →
      ∀ a ∈ l₁, ∃ b ∈ l₂, R a b := by
  intro l₁ l₂ h
  induction h with
  | nil => intro a ha; exact absurd ha (List.not_mem_nil _)
  | cons hR hfa ih =>
    intro a ha
    rcases List.mem_cons.mp ha with rfl | ha
    · exact ⟨_, List.mem_cons_self _ _, hR⟩
    · obtain ⟨b, hb, hRb⟩ := ih a ha
      exact ⟨b, List.mem_cons_of_mem _ hb, hRb⟩

theorem forall2_mem_right {α β : Type} {R : α → β → Prop} :
    ∀ {l₁ : List α} {l₂ : List β}, List.Forall₂ R l₁ l₂ →
      ∀ b ∈ l₂, ∃ a ∈ l₁, R a b := by
  intro l₁ l₂ h
  induction h with
  | nil => intro b hb; exact absurd hb (List.not_mem_nil _)
  | cons hR hfa ih =>
    intro b hb
    rcases List.mem_cons.mp hb with rfl | hb
    · exact ⟨_, List.mem_cons_self _ _, hR⟩
    · obtain ⟨a, ha, hRa⟩ := ih b hb
      exact ⟨a, List.mem_cons_of_mem _ ha, hRa⟩

/-! ## Lemmas: a coherent memo covering a cycle is impossible -/

theorem coherent_pos {skills : List Skill} {memo : Memo}
    (hco : Coherent skills memo) :
    ∀ n o, alookup memo n = some o → 1 ≤ o := by
  intro n o h
  obtain ⟨s, -, -, h1, h2⟩ := hco n o h
  by_cases hd : s.dependencies_name = []
  · rw [h1 hd]
  · obtain ⟨vs, -, hsum⟩ := h2 hd
    omega

theorem coherent_edge_lt {skills : List Skill} {memo : Memo}
    (hnodup : (skills.map Skill.name).Nodup) (hco : Coherent skills memo) :
    ∀ a b, Edge skills a b → ∀ oa, alookup memo a = some oa →
      ∃ ob, alookup memo b = some ob ∧ ob < oa := by
  intro a b he oa ha
  obtain ⟨s, hs, hsn, hbd⟩ := he
  obtain ⟨t, ht, htn, h1, h2⟩ := hco a oa ha
  have hts : t = s := name_injective hnodup ht hs (by rw [htn, hsn])
  subst hts
  have hdep_ne : t.dependencies_name ≠ [] := by
    intro hnil
    rw [hnil] at hbd
    exact absurd hbd (List.not_mem_nil _)
  obtain ⟨vs, hfa, hsum⟩ := h2 hdep_ne
  obtain ⟨vb, hvb_mem, hvb⟩ := forall2_mem_left hfa b hbd
  refine ⟨vb, hvb, ?_⟩
  have hle := mem_le_foldl_max vs 0 vb hvb_mem
  omega

theorem coherent_transGen_lt {skills : List Skill} {memo : Memo}
    (hnodup : (skills.map Skill.name).Nodup) (hco : Coherent skills memo) :
    ∀ a b, Relation.TransGen (Edge skills) a b →
      ∀ oa, alookup memo a = some oa →
      ∃ ob, alookup memo b = some ob ∧ ob < oa := by
  intro a b h
  induction h with
  | single hab => exact fun oa ha => coherent_edge_lt hnodup hco _ _ hab oa ha
  | tail hab hbc ih =>
    intro oa ha
    obtain ⟨ob, hb, hlt⟩ := ih oa ha
    obtain ⟨oc, hc, hlt2⟩ := coherent_edge_lt hnodup hco _ _ hbc ob hb
    exact ⟨oc, hc, lt_trans hlt2 hlt⟩

theorem transGen_first {α : Type} {r : α → α → Prop} {a b : α}
    (h : Relation.TransGen r a b) : ∃ c, r a c := by
  induction h with
  | single hab => exact ⟨_, hab⟩
  | tail _ _ ih => exact ih

theorem coherent_no_cycle {skills : List Skill} {memo : Memo}
    (hnodup : (skills.map Skill.name).Nodup) (hco : Coherent skills memo)
    (hall : ∀ s ∈ skills, ∃ o, alookup memo s.name = some o)
    (hcyc : HasCycle skills) : False := by
  obtain ⟨a, h⟩ := hcyc
  obtain ⟨c, hac⟩ := transGen_first h
  obtain ⟨s, hs, hsn, -⟩ := hac
  obtain ⟨oa, ha⟩ := hall s hs
  rw [hsn] at ha
  obtain ⟨ob, hb, hlt⟩ := coherent_transGen_lt hnodup hco a a h oa ha
  rw [ha] at hb
  injection hb with h'
  omega

/-! ## Lemmas: top-level runs -/

theorem computeOrdersAux_no_cycle (skills : List Skill) (rank : String → Nat)
    (hrank : ∀ s ∈ skills, ∀ d ∈ s.dependencies_name, rank d < rank s.name)
    (fuel : Nat) :
    ∀ (pending : List Skill) (memo : Memo),
      (∀ s ∈ pending, s ∈ skills) → ∀ ch,
      computeOrdersAux (skills_dict skills) fuel memo pending ≠
        .error (.DependencyCycleError ch) := by
  intro pending
  induction pending with
  | nil =>
    intro memo _ ch h
    exact Except.noConfusion h
  | cons s rest ih =>
    intro memo hmem ch h
    unfold computeOrdersAux at h
    split at h
    · rename_i e h1
      injection h with h'
      subst h'
      exact ordinal_no_cycle skills rank hrank fuel memo s []
        (hrank s (hmem s (List.mem_cons_self _ _))) (by simp) ch h1
    · rename_i p o memo₁ h1
      exact ih ((s.name, o) :: memo₁)
        (fun t ht => hmem t (List.mem_cons_of_mem _ ht)) ch h

theorem computeOrdersAux_rerun (dict : String → Option Skill) (fuel : Nat)
    (hfuel : 1 ≤ fuel) :
    ∀ (pending : List Skill) (memo : Memo),
      (∀ s ∈ pending, ∃ o, alookup memo s.name = some o) →
      ∃ final, computeOrdersAux dict fuel memo pending = .ok final ∧
        ∀ n, alookup final n = alookup memo n := by
  intro pending
  induction pending with
  | nil =>
    intro memo _
    exact ⟨memo, rfl, fun n => rfl⟩
  | cons s rest ih =>
    intro memo hpres
    obtain ⟨o, ho⟩ := hpres s (List.mem_cons_self _ _)
    obtain ⟨fuel', rfl⟩ : ∃ f, fuel = f + 1 :=
      ⟨fuel - 1, by omega⟩
    have hstep : getSkillOrdinal dict (fuel' + 1) memo s [] = .ok (o, memo) := by
      rw [getSkillOrdinal_succ, if_neg (List.not_mem_nil s.name)]
      simp only [ho]
    have hsame : ∀ x, alookup ((s.name, o) :: memo) x = alookup memo x :=
      alookup_cons_same ho
    obtain ⟨final, hfin, heq⟩ := ih ((s.name, o) :: memo)
      (fun t ht => by
        obtain ⟨ot, hot⟩ := hpres t (List.mem_cons_of_mem _ ht)
        exact ⟨ot, by rw [hsame]; exact hot⟩)
    refine ⟨final, ?_, fun n => by rw [heq n, hsame n]⟩
    unfold computeOrdersAux
    simp only [hstep]
    exact hfin

/-! ## Lemmas: vocabulary pagination -/

theorem get_vocabulary_loop_succ (server : Nat → VocabPage) (fuel idx : Nat)
    (data : List String) (visited : List Nat) :
    get_vocabulary_loop server (fuel + 1) idx data visited =
      if (server idx).totalLexemes ≤ (data ++ (server idx).learnedLexemes).length
      then .ok (data ++ (server idx).learnedLexemes, visited ++ [idx])
      else get_vocabulary_loop server fuel (server idx).nextStartIndex
        (data ++ (server idx).learnedLexemes) (visited ++ [idx]) := rfl

/-- C1: the pagination loop of `get_vocabulary` has no iteration bound:
against a server that always reports `totalLexemes = 25` but returns 0 new
lexemes and a non-advancing cursor, the loop exhausts every fuel value —
i.e. the Python `while True` loop runs forever; no `PaginationProtocolError`
(or any other error) is ever raised, because the code has no bound to
enforce. -/
theorem vocab_pagination_nonconvergence_loops_forever :
    ∀ fuel : Nat, fetch_all (fun _ => ⟨[], 25, 0⟩) fuel = .error .outOfFuel := by
  have aux : ∀ (fuel startIndex : Nat) (visited : List Nat),
      get_vocabulary_loop (fun _ => ⟨[], 25, 0⟩) fuel startIndex [] visited =
        .error .outOfFuel := by
    intro fuel
    induction fuel with
    | zero => intro s v; rfl
    | succ n ih =>
      intro s v
      rw [get_vocabulary_loop_succ, if_neg (by simp)]
      exact ih 0 (v ++ [s])
  intro fuel
  exact aux fuel 0 []

/-- C5 (counterexample): the accumulated lexeme count does NOT equal the
reported total at termination in general: against a server whose second
page overshoots (pages of sizes 10 and 20, every page reporting
`totalLexemes = 25`), `fetch_all` terminates with 30 lexemes ≠ 25. -/
theorem get_vocabulary_total_overshoot :
    fetch_all overshootServer 10 =
      .ok (List.replicate 10 "a" ++ List.replicate 20 "b", [0, 10]) ∧
    (overshootServer 0).totalLexemes = 25 ∧
    (overshootServer 10).totalLexemes = 25 ∧
    (List.replicate 10 "a" ++ List.replicate 20 "b").length = 30 := by
  exact ⟨rfl, rfl, rfl, rfl⟩

/-- C5 (amended): across pages the accumulator only ever grows (the final
lexeme list extends the accumulator passed in, so the accumulated count is
monotonically non-decreasing), at least one request is issued, and at
termination the accumulated count is at least the total reported by the
final page (the loop stops when the count reaches or exceeds the total;
it can exceed it when the final page overshoots). -/
theorem get_vocabulary_loop_invariants :
    ∀ (server : Nat → VocabPage) (fuel idx : Nat) (data0 : List String)
      (visited0 : List Nat) (data : List String) (visited : List Nat),
      get_vocabulary_loop server fuel idx data0 visited0 = .ok (data, visited) →
      (∃ rest, data = data0 ++ rest) ∧
      visited0.length < visited.length ∧
      (∃ last, visited.getLast? = some last ∧
        (server last).totalLexemes ≤ data.length) := by
  intro server fuel
  induction fuel with
  | zero =>
    intro idx d0 v0 d v h
    exact Except.noConfusion h
  | succ n ih =>
    intro idx d0 v0 d v h
    rw [get_vocabulary_loop_succ] at h
    split at h
    · rename_i hc
      obtain ⟨h1, h2⟩ := except_ok_pair h
      subst h1; subst h2
      refine ⟨⟨(server idx).learnedLexemes, rfl⟩, by simp, idx, ?_, hc⟩
      rw [List.getLast?_append_cons]
      rfl
    · rename_i hc
      obtain ⟨⟨rest, hrest⟩, hlen, last, hl1, hl2⟩ :=
        ih (server idx).nextStartIndex (d0 ++ (server idx).learnedLexemes)
          (v0 ++ [idx]) d v h
      refine ⟨⟨(server idx).learnedLexemes ++ rest, by
        rw [hrest, List.append_assoc]⟩, ?_, last, hl1, hl2⟩
      have : v0.length < (v0 ++ [idx]).length := by simp
      omega

/-- C6: the daily-XP cutoff is `reported_midnight + min(midnight -
reported_midnight, 0)`: it is never later than the reported value; when
the reported time is one hour (3600 s) after local midnight the cutoff is
pulled back to local midnight exactly; `lessons_today` is exactly the
gains with `time > cutoff` and `xp_today` is the sum of their `xp`
fields. -/
theorem get_daily_xp_progress_cutoff_spec :
    ∀ (goal : Int) (gains : List XpGain) (midnight reported : Int),
      update_cutoff midnight reported ≤ reported ∧
      update_cutoff midnight (midnight + 3600) = midnight ∧
      (get_daily_xp_progress goal gains midnight reported).lessons_today =
        gains.filter (fun l => update_cutoff midnight reported < l.time) ∧
      (get_daily_xp_progress goal gains midnight reported).xp_today =
        ((gains.filter (fun l => update_cutoff midnight reported < l.time)).map
          (fun l => l.xp)).sum ∧
      (get_daily_xp_progress goal gains midnight reported).xp_goal = goal := by
  intro goal gains midnight reported
  refine ⟨?_, ?_, rfl, rfl, rfl⟩
  · have h := min_le_right (midnight - reported) (0 : Int)
    unfold update_cutoff
    omega
  · have h : min (midnight - (midnight + 3600)) (0 : Int) = midnight - (midnight + 3600) :=
      min_eq_left (by omega)
    unfold update_cutoff
    rw [h]
    ring

/-- Witness for the amended C5 statement, at the spec's fake server
(pages 10, 10, 5 against `totalLexemes = 25`): exactly 25 lexemes in 3
requests, the first cursor 0 is visited exactly once, and the generic
invariants are obtained by applying `get_vocabulary_loop_invariants`
there. -/
theorem get_vocabulary_loop_invariants_witness :
    ((∃ rest, (List.replicate 10 "a" ++ (List.replicate 10 "b" ++
        List.replicate 5 "c") : List String) = [] ++ rest) ∧
      ([] : List Nat).length < ([0, 10, 20] : List Nat).length ∧
      (∃ last, ([0, 10, 20] : List Nat).getLast? = some last ∧
        (pagedServer last).totalLexemes ≤
          (List.replicate 10 "a" ++ (List.replicate 10 "b" ++
            List.replicate 5 "c") : List String).length)) ∧
    (List.replicate 10 "a" ++ (List.replicate 10 "b" ++
      List.replicate 5 "c") : List String).length = 25 ∧
    ([0, 10, 20] : List Nat).length = 3 ∧
    List.count 0 ([0, 10, 20] : List Nat) = 1 := by
  refine ⟨?_, by decide, by decide, by decide⟩
  exact get_vocabulary_loop_invariants pagedServer 5 0 [] []
    (List.replicate 10 "a" ++ (List.replicate 10 "b" ++ List.replicate 5 "c"))
    [0, 10, 20] rfl

/-- C2: `get_known_words` — unlike the other per-language accessors — does
not route through the language switch: for a snapshot without `"hv"` it
fails with a `KeyError` and issues no switch request at all, whereas
`get_known_topics` on the same snapshot issues exactly one switch request
and then reads the reloaded snapshot, and raises `LanguageSwitchError`
when the server silently ignores the switch. -/
theorem get_known_words_bypasses_language_switch :
    get_known_words "hv" udFr = .error (.KeyError "hv") ∧
    get_known_topics srvHonor "hv" udFr = .ok (["Basics HV"], udHv, 1) ∧
    get_known_topics srvIgnore "hv" udFr = .error .LanguageSwitchError := by
  exact ⟨rfl, rfl, rfl⟩

/-- C7: after the username is resolved, construction performs exactly one
authentication probe against the profile-by-username endpoint; if the
probe is not a success the construction fails with `AuthenticationError`;
and every successfully constructed client carries a username whose probe
succeeded (no half-authenticated client is ever returned). -/
theorem duolingo_init_auth_probe (decodeSub : String → Option String)
    (srv : InitServer) (jwt uuid username : String)
    (hdec : decodeSub jwt = some uuid)
    (hname : srv.usernameById uuid = some username) :
    (duolingo_init decodeSub srv jwt).2 = 1 ∧
    (check_authentication srv username = false →
      (duolingo_init decodeSub srv jwt).1 = .error .AuthenticationError) ∧
    (∀ c, (duolingo_init decodeSub srv jwt).1 = .ok c →
      c.username = username ∧ check_authentication srv c.username = true) := by
  cases hb : check_authentication srv username with
  | true =>
    have h200 : srv.profileStatus username = 200 := of_decide_eq_true hb
    have hres : duolingo_init decodeSub srv jwt =
        (.ok ⟨jwt, username, srv.profileJson username⟩, 1) := by
      unfold duolingo_init
      rw [hdec]
      simp only [hname, hb, if_true]
      unfold get_data
      rw [if_neg (by omega)]
    refine ⟨by rw [hres], ?_, ?_⟩
    · intro hfalse
      exact absurd hfalse (by decide)
    · intro c hc
      rw [hres] at hc
      injection hc with hc'
      subst hc'
      exact ⟨rfl, hb⟩
  | false =>
    have hres : duolingo_init decodeSub srv jwt =
        (.error .AuthenticationError, 1) := by
      unfold duolingo_init
      rw [hdec]
      simp [hname, hb]
    refine ⟨by rw [hres], fun _ => by rw [hres], ?_⟩
    intro c hc
    rw [hres] at hc
    exact Except.noConfusion hc

/-- Witness for C7 at a concrete decoder and server: the probe count is 1
and the constructed client passed the probe. -/
theorem duolingo_init_auth_probe_witness :
    (decodeFix "jwt-token" = some "uuid-1" ∧
      (initSrvOk).usernameById "uuid-1" = some "alice") ∧
    ((duolingo_init decodeFix initSrvOk "jwt-token").2 = 1 ∧
      (check_authentication initSrvOk "alice" = false →
        (duolingo_init decodeFix initSrvOk "jwt-token").1 =
          .error .AuthenticationError) ∧
      (∀ c, (duolingo_init decodeFix initSrvOk "jwt-token").1 = .ok c →
        c.username = "alice" ∧ check_authentication initSrvOk c.username = true)) :=
  ⟨⟨rfl, rfl⟩, duolingo_init_auth_probe decodeFix initSrvOk
    "jwt-token" "uuid-1" "alice" rfl rfl⟩

/-! ## Lemmas: known words -/

theorem mem_words_foldl :
    ∀ (skills : List Skill) (acc : List String) (w : String),
      (w ∈ skills.foldl
        (fun acc t => if t.learned then acc ++ t.words else acc) acc) ↔
      (w ∈ acc ∨ ∃ s ∈ skills, s.learned ∧ w ∈ s.words) := by
  intro skills
  induction skills with
  | nil => intro acc w; simp
  | cons t rest ih =>
    intro acc w
    rw [List.foldl_cons]
    by_cases hl : t.learned
    · rw [if_pos hl, ih, List.exists_mem_cons_iff]
      simp only [List.mem_append, hl, true_and]
      tauto
    · rw [if_neg hl, ih, List.exists_mem_cons_iff]
      have : ¬(t.learned = true ∧ w ∈ t.words) := fun hc => hl hc.1
      tauto

/-- C10: for a snapshot in which `abbr` is a key of `language_data`,
`get_known_words` returns (without any switch request) a duplicate-free
list whose elements are exactly the words of the skills marked learned;
words of unlearned skills are excluded.  Element order is unspecified by
the claim (Python's `list(set(...))` is modelled as `List.dedup`). -/
theorem get_known_words_spec (abbr : String) (ud : UserData)
    (ld : LanguageData) (h : alookup ud.language_data abbr = some ld) :
    ∃ l, get_known_words abbr ud = .ok (l, ud, 0) ∧ l.Nodup ∧
      ∀ w, w ∈ l ↔ ∃ s ∈ ld.skills, s.learned ∧ w ∈ s.words := by
  refine ⟨(ld.skills.foldl
      (fun acc t => if t.learned then acc ++ t.words else acc) []).dedup,
    ?_, List.nodup_dedup _, ?_⟩
  · unfold get_known_words
    simp only [h]
  · intro w
    rw [List.mem_dedup, mem_words_foldl]
    simp

/-- Witness for C10 at a concrete snapshot: the learned skill's words are
returned deduplicated, the unlearned skill's words are excluded. -/
theorem get_known_words_spec_witness :
    (alookup udFr.language_data "fr" = some ldFr) ∧
    (∃ l, get_known_words "fr" udFr = .ok (l, udFr, 0) ∧ l.Nodup ∧
      ∀ w, w ∈ l ↔ ∃ s ∈ ldFr.skills, s.learned ∧ w ∈ s.words) :=
  ⟨rfl, get_known_words_spec "fr" udFr ldFr rfl⟩

/-- C9 (counterexample): with two learned skills sharing the title `"T"`
(strengths 1 and 1/2, both within [0,1], and `"fr"` a key of the
snapshot), the golden and reviewable topic lists both contain `"T"` — they
are not disjoint and `"T"` does not appear in exactly one of them. -/
theorem topics_partition_duplicate_titles :
    get_golden_topics srvHonor "fr" udDupTitles = .ok (["T"], udDupTitles, 0) ∧
    get_reviewable_topics srvHonor "fr" udDupTitles =
      .ok (["T"], udDupTitles, 0) ∧
    get_known_topics srvHonor "fr" udDupTitles =
      .ok (["T", "T"], udDupTitles, 0) ∧
    ((0 : ℚ) ≤ 1 ∧ (1 : ℚ) ≤ 1) ∧ ((0 : ℚ) ≤ mkRat 1 2 ∧ mkRat 1 2 ≤ 1) ∧
    ¬ List.Disjoint (["T"] : List String) ["T"] := by
  refine ⟨rfl, rfl, rfl, ⟨by norm_num, le_refl 1⟩, ⟨by decide, by decide⟩, ?_⟩
  intro hdisj
  exact hdisj (List.mem_cons_self _ _) (List.mem_cons_self _ _)

/-- C9 (amended): provided additionally that the learned skills' titles
are pairwise distinct, the golden and reviewable topic lists partition the
known topics: every known title is in at least one of the two, never in
both, and each list preserves the skills' order (is a sublist of the known
list). -/
theorem topics_partition (srv : SwitchServer) (abbr : String) (ud : UserData)
    (ld : LanguageData) (hld : alookup ud.language_data abbr = some ld)
    (hstr : ∀ s ∈ ld.skills, 0 ≤ s.strength ∧ s.strength ≤ 1)
    (hnd : (known_topics_of ld).Nodup) :
    get_known_topics srv abbr ud = .ok (known_topics_of ld, ud, 0) ∧
    get_golden_topics srv abbr ud = .ok (golden_topics_of ld, ud, 0) ∧
    get_reviewable_topics srv abbr ud = .ok (reviewable_topics_of ld, ud, 0) ∧
    (∀ t, t ∈ known_topics_of ld ↔
      (t ∈ golden_topics_of ld ∨ t ∈ reviewable_topics_of ld)) ∧
    (∀ t, ¬(t ∈ golden_topics_of ld ∧ t ∈ reviewable_topics_of ld)) ∧
    List.Sublist (golden_topics_of ld) (known_topics_of ld) ∧
    List.Sublist (reviewable_topics_of ld) (known_topics_of ld) := by
  have hcur : is_current_language ud abbr = true := by
    simp [is_current_language, hld]
  refine ⟨?_, ?_, ?_, ?_, ?_, ?_, ?_⟩
  · unfold get_known_topics
    simp [hcur, hld]
  · unfold get_golden_topics
    simp [hcur, hld]
  · unfold get_reviewable_topics
    simp [hcur, hld]
  · intro t
    simp only [known_topics_of, golden_topics_of, reviewable_topics_of,
      List.mem_map, List.mem_filter, decide_eq_true_eq]
    constructor
    · rintro ⟨s, ⟨hsmem, hsl⟩, rfl⟩
      rcases lt_or_eq_of_le (hstr s hsmem).2 with hlt | heq
      · exact Or.inr ⟨s, ⟨hsmem, hsl, hlt⟩, rfl⟩
      · exact Or.inl ⟨s, ⟨hsmem, hsl, heq⟩, rfl⟩
    · rintro (⟨s, ⟨hsmem, hsl, -⟩, rfl⟩ | ⟨s, ⟨hsmem, hsl, -⟩, rfl⟩) <;>
        exact ⟨s, ⟨hsmem, hsl⟩, rfl⟩
  · intro t ⟨htg, htr⟩
    simp only [golden_topics_of, reviewable_topics_of, List.mem_map,
      List.mem_filter, decide_eq_true_eq] at htg htr
    obtain ⟨s₁, ⟨h1m, h1l, h1s⟩, h1t⟩ := htg
    obtain ⟨s₂, ⟨h2m, h2l, h2s⟩, h2t⟩ := htr
    have hne : s₁ ≠ s₂ := by
      intro he
      subst he
      rw [h1s] at h2s
      exact lt_irrefl _ h2s
    have hm₁ : s₁ ∈ ld.skills.filter (fun t => t.learned) :=
      List.mem_filter_of_mem h1m h1l
    have hm₂ : s₂ ∈ ld.skills.filter (fun t => t.learned) :=
      List.mem_filter_of_mem h2m h2l
    exact hne (List.inj_on_of_nodup_map hnd hm₁ hm₂ (h1t.trans h2t.symm))
  · exact (List.monotone_filter_right ld.skills (fun a ha => by
      simp only [decide_eq_true_eq] at ha
      exact ha.1)).map _
  · exact (List.monotone_filter_right ld.skills (fun a ha => by
      simp only [decide_eq_true_eq] at ha
      exact ha.1)).map _

/-- Witness for the amended C9 at a concrete snapshot: one golden skill
(`Alpha`), one reviewable skill (`Beta`), one unlearned skill (`Gamma`),
with distinct titles, strengths in [0,1], and `"fr"` a key. -/
theorem topics_partition_witness :
    ((∀ s ∈ ldMix.skills, 0 ≤ s.strength ∧ s.strength ≤ 1) ∧
      (known_topics_of ldMix).Nodup) ∧
    (get_known_topics srvHonor "fr" udMix = .ok (known_topics_of ldMix, udMix, 0) ∧
      get_golden_topics srvHonor "fr" udMix =
        .ok (golden_topics_of ldMix, udMix, 0) ∧
      get_reviewable_topics srvHonor "fr" udMix =
        .ok (reviewable_topics_of ldMix, udMix, 0) ∧
      (∀ t, t ∈ known_topics_of ldMix ↔
        (t ∈ golden_topics_of ldMix ∨ t ∈ reviewable_topics_of ldMix)) ∧
      (∀ t, ¬(t ∈ golden_topics_of ldMix ∧ t ∈ reviewable_topics_of ldMix)) ∧
      List.Sublist (golden_topics_of ldMix) (known_topics_of ldMix) ∧
      List.Sublist (reviewable_topics_of ldMix) (known_topics_of ldMix)) :=
  ⟨⟨by
    intro s hs
    fin_cases hs <;> constructor <;> norm_num [ldMix], by decide⟩,
    topics_partition srvHonor "fr" udMix ldMix rfl
      (by
        intro s hs
        fin_cases hs <;> constructor <;> norm_num [ldMix])
      (by decide)⟩

/-- C3: on an acyclic skill list (acyclicity witnessed by a ranking that
strictly decreases along dependency edges), with pairwise-distinct names
and dependencies resolvable within the list, `compute_orders` succeeds and
assigns order exactly 1 to every skill with an empty dependency list, and
`1 + max(orders of its dependencies)` to every skill with dependencies
(`List.foldl Nat.max 0` over the dependency-order list `vs`, shown to be
attained by an element of `vs`, is the maximum of that non-empty list). -/
theorem compute_orders_acyclic_correct (skills : List Skill)
    (rank : String → Nat)
    (hnodup : (skills.map Skill.name).Nodup)
    (hclosed : ∀ s ∈ skills, ∀ d ∈ s.dependencies_name,
      ∃ t ∈ skills, t.name = d)
    (hrank : ∀ s ∈ skills, ∀ d ∈ s.dependencies_name,
      rank d < rank s.name) :
    ∃ memo, compute_dependency_order skills = .ok memo ∧
      ∀ s ∈ skills, ∃ o, alookup memo s.name = some o ∧
        (s.dependencies_name = [] → o = 1) ∧
        (s.dependencies_name ≠ [] → ∃ vs,
          List.Forall₂ (fun d v => alookup memo d = some v)
            s.dependencies_name vs ∧
          o = 1 + vs.foldl Nat.max 0 ∧ vs.foldl Nat.max 0 ∈ vs) := by
  have hfuel : (skills.map Skill.name).dedup.length < skills.length + 1 :=
    Nat.lt_succ_of_le (skillKeys_length_le skills)
  have hconil : Coherent skills [] := fun n o h => Option.noConfusion h
  have hdict : ∀ n sk, skills_dict skills n = some sk → sk.name = n :=
    fun n sk hd => (skills_dict_mem hd).2
  rcases computeOrdersAux_ok_or_cycle skills hclosed (skills.length + 1) hfuel
      skills [] (fun s hs => hs) with ⟨final, hok⟩ | ⟨ch, herr⟩
  · have hco : Coherent skills final :=
      computeOrdersAux_coherent skills (skills.length + 1) skills [] final
        (fun s hs => hs) hconil hok
    have hall := (computeOrdersAux_facts (skills_dict skills) hdict
      (skills.length + 1) skills [] final hok).2
    refine ⟨final, hok, ?_⟩
    intro s hs
    obtain ⟨o, ho⟩ := hall s hs
    obtain ⟨t, ht, htn, h1, h2⟩ := hco s.name o ho
    have hts : t = s := name_injective hnodup ht hs htn
    subst hts
    refine ⟨o, ho, h1, ?_⟩
    intro hne
    obtain ⟨vs, hfa, hsum⟩ := h2 hne
    refine ⟨vs, hfa, hsum, ?_⟩
    rcases foldl_max_eq_or_mem vs 0 with hz | hmem
    · exfalso
      have hvs_ne : vs ≠ [] := by
        intro hnil
        have hlen := hfa.length_eq
        rw [hnil] at hlen
        exact hne (List.eq_nil_of_length_eq_zero hlen)
      obtain ⟨v, tail, rfl⟩ : ∃ v tail, vs = v :: tail := by
        cases vs with
        | nil => exact absurd rfl hvs_ne
        | cons v tail => exact ⟨v, tail, rfl⟩
      have hvmem : v ∈ v :: tail := List.mem_cons_self _ _
      obtain ⟨d, hd, hdv⟩ := forall2_mem_right hfa v hvmem
      have h1v := coherent_pos hco d v hdv
      have hle := mem_le_foldl_max (v :: tail) 0 v hvmem
      omega
    · exact hmem
  · exact absurd herr (computeOrdersAux_no_cycle skills rank hrank
      (skills.length + 1) skills [] (fun s hs => hs) ch)

/-- Witness for C3 at the concrete acyclic list `A`, `B -> A`,
`C -> A, B`, with ranking A 0, B 1, C 2. -/
theorem compute_orders_acyclic_correct_witness :
    ((acyclicSkills.map Skill.name).Nodup ∧
      (∀ s ∈ acyclicSkills, ∀ d ∈ s.dependencies_name,
        ∃ t ∈ acyclicSkills, t.name = d) ∧
      (∀ s ∈ acyclicSkills, ∀ d ∈ s.dependencies_name,
        rankABC d < rankABC s.name)) ∧
    (∃ memo, compute_dependency_order acyclicSkills = .ok memo ∧
      ∀ s ∈ acyclicSkills, ∃ o, alookup memo s.name = some o ∧
        (s.dependencies_name = [] → o = 1) ∧
        (s.dependencies_name ≠ [] → ∃ vs,
          List.Forall₂ (fun d v => alookup memo d = some v)
            s.dependencies_name vs ∧
          o = 1 + vs.foldl Nat.max 0 ∧ vs.foldl Nat.max 0 ∈ vs)) :=
  ⟨⟨by decide, by decide, by decide⟩,
    compute_orders_acyclic_correct acyclicSkills rankABC
      (by decide) (by decide) (by decide)⟩

/-- C4: on a skill list with pairwise-distinct names and resolvable
dependencies whose dependency graph contains a cycle, `compute_orders`
terminates with `DependencyCycleError`; the reported chain is the
breadcrumb path ending in the repeated name (its last element occurs
earlier in the chain). -/
theorem compute_orders_cycle_detected (skills : List Skill)
    (hnodup : (skills.map Skill.name).Nodup)
    (hclosed : ∀ s ∈ skills, ∀ d ∈ s.dependencies_name,
      ∃ t ∈ skills, t.name = d)
    (hcyc : HasCycle skills) :
    ∃ ch xs x, compute_dependency_order skills =
      .error (.DependencyCycleError ch) ∧ ch = xs ++ [x] ∧ x ∈ xs := by
  have hfuel : (skills.map Skill.name).dedup.length < skills.length + 1 :=
    Nat.lt_succ_of_le (skillKeys_length_le skills)
  have hconil : Coherent skills [] := fun n o h => Option.noConfusion h
  have hdict : ∀ n sk, skills_dict skills n = some sk → sk.name = n :=
    fun n sk hd => (skills_dict_mem hd).2
  rcases computeOrdersAux_ok_or_cycle skills hclosed (skills.length + 1) hfuel
      skills [] (fun s hs => hs) with ⟨final, hok⟩ | ⟨ch, herr⟩
  · exfalso
    have hco : Coherent skills final :=
      computeOrdersAux_coherent skills (skills.length + 1) skills [] final
        (fun s hs => hs) hconil hok
    have hall := (computeOrdersAux_facts (skills_dict skills) hdict
      (skills.length + 1) skills [] final hok).2
    exact coherent_no_cycle hnodup hco hall hcyc
  · obtain ⟨xs, x, hsh, hx⟩ := computeOrdersAux_error_cycle_shape
      (skills_dict skills) (skills.length + 1) skills [] ch herr
    exact ⟨ch, xs, x, herr, hsh, hx⟩

/-- Witness for C4 at the two-cycle `A -> B -> A`: the theorem applies,
and concretely the reported chain is `["A", "B", "A"]`, which contains
both `A` and `B`. -/
theorem compute_orders_cycle_detected_witness :
    ((cycleSkills.map Skill.name).Nodup ∧
      (∀ s ∈ cycleSkills, ∀ d ∈ s.dependencies_name,
        ∃ t ∈ cycleSkills, t.name = d)) ∧
    (∃ ch xs x, compute_dependency_order cycleSkills =
      .error (.DependencyCycleError ch) ∧ ch = xs ++ [x] ∧ x ∈ xs) ∧
    (compute_dependency_order cycleSkills =
      .error (.DependencyCycleError ["A", "B", "A"]) ∧
      "A" ∈ (["A", "B", "A"] : List String) ∧
      "B" ∈ (["A", "B", "A"] : List String)) :=
  ⟨⟨by decide, by decide⟩,
    compute_orders_cycle_detected cycleSkills (by decide) (by decide)
      ⟨"A", Relation.TransGen.head (b := "B") (by decide)
        (Relation.TransGen.single (by decide))⟩,
    ⟨rfl, by decide, by decide⟩⟩

/-- C8: a dependency order, once computed, is never recomputed to a
different value: re-running `compute_orders` over the same skill list
starting from the memo state of a successful run succeeds and leaves every
stored association unchanged (every lookup returns the memoised value). -/
theorem compute_orders_memoized (skills : List Skill) (memo : Memo)
    (h : compute_dependency_order skills = .ok memo) :
    ∃ memo', compute_dependency_order_from skills memo = .ok memo' ∧
      ∀ n, alookup memo' n = alookup memo n := by
  have hdict : ∀ n sk, skills_dict skills n = some sk → sk.name = n :=
    fun n sk hd => (skills_dict_mem hd).2
  have h' : computeOrdersAux (skills_dict skills) (skills.length + 1) []
      skills = .ok memo := h
  have hall := (computeOrdersAux_facts (skills_dict skills) hdict
    (skills.length + 1) skills [] memo h').2
  exact computeOrdersAux_rerun (skills_dict skills) (skills.length + 1)
    (by omega) skills memo hall

/-- Witness for C8 at the concrete acyclic list: the first run's memo is
computed, and re-running from it changes no stored value. -/
theorem compute_orders_memoized_witness :
    (compute_dependency_order acyclicSkills =
      .ok [("C", 3), ("C", 3), ("B", 2), ("B", 2), ("A", 1), ("A", 1)]) ∧
    (∃ memo', compute_dependency_order_from acyclicSkills
        [("C", 3), ("C", 3), ("B", 2), ("B", 2), ("A", 1), ("A", 1)] =
          .ok memo' ∧
      ∀ n, alookup memo' n =
        alookup [("C", 3), ("C", 3), ("B", 2), ("B", 2), ("A", 1), ("A", 1)] n) :=
  ⟨rfl, compute_orders_memoized acyclicSkills
    [("C", 3), ("C", 3), ("B", 2), ("B", 2), ("A", 1), ("A", 1)] rfl⟩
